import Mathlib

/-!
Verification of the CDCL SAT solver in `src/CDCL/cdcl_implementation.c`.

The solver state and every operation of the CDCL core (literal evaluation,
assignment, unit propagation, the decision heuristic, backtracking,
First-UIP conflict analysis with clause learning, and the main search loop)
are shallowly embedded below.  The per-variable C arrays `assignment`,
`level_of` and `reason` are embedded as total functions over variable
indices (levels, which the C code keeps non-negative, as naturals), the
trail as a list whose head is the most recently assigned literal, that is
C's `trail[trail_top - 1]`, and the clause store as a list of clauses in
insertion order.  The analyzer's per-variable flag arrays `seen[]` and
`gen_of[]` are embedded as bit sets, one bit per variable.  Loops become
structural recursions; the two loops whose iteration count is not
syntactically bounded, namely the outer `while (changed)` loop of
`propagate` and the main loop of `solve`, take explicit fuel and return
`none` when it runs out.
-/

namespace CDCL

/-- Result code SAT, from `#define SAT 10`. -/
def SATcode : Int := 10

/-- Result code UNSAT, from `#define UNSAT 20`. -/
def UNSATcode : Int := 20

/-- The unassigned sentinel, from `#define UNASSIGNED -1`. -/
def UNASSIGNED : Int := -1

/-- Learned/parsed clause length cap, from `#define MAX_LIT_BUF 256`. -/
def MAX_LIT_BUF : Nat := 256

/-- The solver state, from `struct Solver` (lines 40-55 of the C source).
`num_clauses` is `clauses.length` and `trail_top` is `trail.length`.
The head of `trail` is the most recently pushed literal, so C's `trail[i]`
is `trail.reverse[i]`. -/
structure Solver where
  clauses : List (List Int)
  num_vars : Nat
  assignment : Nat → Int
  level_of : Nat → Nat
  reason : Nat → Int
  trail : List Int
  level : Nat

/-- C's `!val` on the boolean ints stored in `assignment`. -/
def bnot (val : Int) : Int := if val = 0 then 1 else 0

/-- Three-valued literal evaluation, from `lit_value` (lines 77-82). -/
def lit_value (s : Solver) (lit : Int) : Int :=
  let var := lit.natAbs
  let val := s.assignment var
  if val = UNASSIGNED then UNASSIGNED
  else if lit > 0 then val else bnot val

/-- Append a clause to the store, from `add_clause` (lines 88-100). -/
def add_clause (s : Solver) (lits : List Int) : Solver :=
  { s with clauses := s.clauses ++ [lits] }

/-- Assign a literal, from `assign` (lines 106-112): record value, level and
reason for the literal's variable and push the literal on the trail. -/
def assign (s : Solver) (lit : Int) (level : Nat) (reason_clause : Int) : Solver :=
  let var := lit.natAbs
  { s with
    assignment := fun v => if v = var then (if lit > 0 then 1 else 0) else s.assignment v
    level_of := fun v => if v = var then level else s.level_of v
    reason := fun v => if v = var then reason_clause else s.reason v
    trail := lit :: s.trail }

/-- The inner scan of one clause in `propagate` (lines 125-132): walk the
literals accumulating the count `n` of unassigned literals and the last
unassigned literal seen, stopping at the first true literal. -/
def scanClause (s : Solver) : List Int → Nat → Int → Bool × Nat × Int
  | [], n, last => (false, n, last)
  | l :: rest, n, last =>
    let v := lit_value s l
    if v = 1 then (true, n, last)
    else if v = UNASSIGNED then scanClause s rest (n + 1) l
    else scanClause s rest n last

/-- One pass of `propagate`'s `for` loop over the clause store
(lines 123-139).  `i` is the index of the clause at the head of `cs`;
the result is the updated state, the `changed` flag, and the conflict
index, `-1` when the pass completed without conflict.  A satisfied clause
is skipped; a clause with no true and no unassigned literal is a conflict;
a clause with exactly one unassigned literal assigns it at the current
level with the clause as reason and sets `changed`. -/
def sweep : Solver → Nat → List (List Int) → Bool → Solver × Bool × Int
  | s, _, [], changed => (s, changed, -1)
  | s, i, c :: rest, changed =>
    match scanClause s c 0 0 with
    | (sat, n, last) =>
      if sat then sweep s (i + 1) rest changed
      else if n = 0 then (s, changed, (i : Int))
      else if n = 1 then sweep (assign s last s.level (i : Int)) (i + 1) rest true
      else sweep s (i + 1) rest changed

/-- Unit propagation, from `propagate` (lines 119-142): repeat full passes
while the previous pass made progress; return the first conflict clause
index, or `-1` at a fixed point.  The `while (changed)` loop is fueled,
one unit of fuel per pass; `none` means the fuel ran out, which never
happens when the fuel exceeds the number of passes (each pass other than
the last assigns at least one previously unassigned variable). -/
def propagateFuel : Nat → Solver → Option (Solver × Int)
  | 0, _ => none
  | fuel + 1, s =>
    match sweep s 0 s.clauses false with
    | (s1, changed, confl) =>
      if confl ≥ 0 then some (s1, confl)
      else if changed then propagateFuel fuel s1
      else some (s1, -1)

/-- The scan of `decide` (lines 148-153) over a list of variables. -/
def decideAux (s : Solver) : List Nat → Nat
  | [] => 0
  | v :: rest => if s.assignment v = UNASSIGNED then v else decideAux s rest

/-- Decision heuristic, from `decide` (lines 148-153): the first variable in
`1..num_vars` whose value is UNASSIGNED, or `0` when all are assigned. -/
def decide (s : Solver) : Nat :=
  decideAux s ((List.range s.num_vars).map (· + 1))

/-- The pop loop of `backtrack` (lines 160-168), as a recursion over the
trail threading the three per-variable maps: pop while the top variable's
level exceeds the target, resetting the popped variable's value to
UNASSIGNED, its level to 0 and its reason to the decision marker `-1`. -/
def btAux (level : Nat) :
    List Int → (Nat → Int) → (Nat → Nat) → (Nat → Int) →
    List Int × (Nat → Int) × (Nat → Nat) × (Nat → Int)
  | [], a, lo, r => ([], a, lo, r)
  | lit :: rest, a, lo, r =>
    let var := lit.natAbs
    if lo var ≤ level then (lit :: rest, a, lo, r)
    else btAux level rest
      (fun w => if w = var then UNASSIGNED else a w)
      (fun w => if w = var then 0 else lo w)
      (fun w => if w = var then -1 else r w)

/-- Backtracking, from `backtrack` (lines 159-170): run the pop loop and set
the current decision level to the target level. -/
def backtrack (s : Solver) (level : Nat) : Solver :=
  match btAux level s.trail s.assignment s.level_of s.reason with
  | (t, a, lo, r) =>
    { s with trail := t, assignment := a, level_of := lo, reason := r, level := level }

/-- The analyzer's marked-set state.  The C code keeps per-variable flags
`seen[]` validated by a generation counter `gen_of[]`/`cur_gen`
(lines 182-185): a variable is *touched* when `gen_of[v] == cur_gen` and
*marked* when additionally `seen[v] == 1`.  Both flag arrays are embedded
as bit sets (bit `v` is the flag of variable `v`); a fresh generation is a
fresh pair of empty bit sets.  `counter` counts marked variables at the
current decision level. -/
structure Mark where
  touched : Nat
  seen : Nat
  counter : Nat

/-- Mark every yet-untouched variable of a clause, counting the newly marked
variables at the current level; from lines 194-200 and 217-223 of
`analyze`. -/
def markVars (s : Solver) (m : Mark) (lits : List Int) : Mark :=
  lits.foldl (fun m l =>
    let v := l.natAbs
    if m.touched.testBit v then m
    else { touched := m.touched ||| (1 <<< v), seen := m.seen ||| (1 <<< v),
           counter := if s.level_of v = s.level then m.counter + 1 else m.counter }) m

/-- The First-UIP resolution loop of `analyze` (lines 203-224), walking the
trail from the most recent literal down.  While more than one marked
variable sits at the current level: skip unmarked trail literals, pop the
first marked one (clear its `seen` bit, decrement the counter), and if it
was propagated (`reason[v] >= 0`) resolve its reason clause into the
marked set.  The C code never runs off the end of the trail, because a
marked current-level literal always remains below the cursor while
`counter > 1`; on an exhausted trail the embedding returns the marked set
as is. -/
def analyzeLoop (s : Solver) : List Int → Mark → Mark
  | [], m => m
  | lit :: rest, m =>
    if m.counter ≤ 1 then m
    else
      let v := lit.natAbs
      if m.touched.testBit v && m.seen.testBit v then
        let m1 : Mark := { m with seen := m.seen ^^^ (1 <<< v), counter := m.counter - 1 }
        let rc := s.reason v
        if rc < 0 then analyzeLoop s rest m1
        else analyzeLoop s rest (markVars s m1 (s.clauses.getD rc.toNat []))
      else analyzeLoop s rest m

/-- The final marked set of `analyze` on conflict clause `c`: initialise the
marks from the conflict clause (lines 193-200), then run the resolution
loop over the trail (lines 203-224). -/
def analyzeFinalMark (s : Solver) (c : Nat) : Mark :=
  analyzeLoop s s.trail
    (markVars s { touched := 0, seen := 0, counter := 0 } (s.clauses.getD c []))

/-- The learned-clause construction loop of `analyze` (lines 227-235) over
the listed variables in ascending order: for each marked variable append
the literal opposite to its current value — but only while fewer than
`MAX_LIT_BUF` literals have been kept (C's `if (size < MAX_LIT_BUF)`) —
and raise the backjump level to the variable's level whenever that level
differs from the current one and exceeds the accumulator.  The kept
literals are accumulated in reverse and flipped on return, matching the
ascending writes into C's `learned[]` array. -/
def buildLoop (s : Solver) (m : Mark) : List Nat → List Int → Nat → Nat → List Int × Nat
  | [], rev, _, bl => (rev.reverse, bl)
  | v :: vs, rev, size, bl =>
    if m.touched.testBit v && m.seen.testBit v then
      let lit : Int := if s.assignment v = 1 then -(v : Int) else (v : Int)
      let rev1 := if size < MAX_LIT_BUF then lit :: rev else rev
      let size1 := if size < MAX_LIT_BUF then size + 1 else size
      let bl1 := if s.level_of v ≠ s.level ∧ bl < s.level_of v then s.level_of v else bl
      buildLoop s m vs rev1 size1 bl1
    else buildLoop s m vs rev size bl

/-- Build the learned clause and backjump level from the final marked set,
scanning variables `1..num_vars` as C's `for (v = 1; v <= num_vars; v++)`
(lines 227-235). -/
def buildLearned (s : Solver) (m : Mark) : List Int × Nat :=
  buildLoop s m ((List.range s.num_vars).map (· + 1)) [] 0 0

/-- First-UIP conflict analysis, from `analyze` (lines 177-239): compute the
final marked set, build the learned clause and the backjump level, append
the learned clause to the store (line 237) and return the backjump
level. -/
def analyze (s : Solver) (conflict_clause : Nat) : Solver × Nat :=
  let m := analyzeFinalMark s conflict_clause
  match buildLearned s m with
  | (learned, bl) => (add_clause s learned, bl)

/-- The solver state right after `parse_dimacs` returns: the parsed clauses,
`assignment[i] = UNASSIGNED` and `reason[i] = -1` (lines 326-329), levels
zeroed by `calloc` (line 319), empty trail, level 0 (line 246). -/
def initSolver (cnf : List (List Int)) (num_vars : Nat) : Solver :=
  { clauses := cnf, num_vars := num_vars,
    assignment := fun _ => UNASSIGNED,
    level_of := fun _ => 0,
    reason := fun _ => -1,
    trail := [], level := 0 }

/-- The CDCL main loop, from `solve` (lines 245-260), with fuel counting its
iterations.  Each iteration propagates (passing `propagate` enough fuel
for its passes); on conflict it returns UNSAT at level 0 or analyzes,
backtracks to the returned level and continues; otherwise it decides the
first unassigned variable at the incremented level, or returns SAT when
no variable is left. -/
def solveFuel : Nat → Solver → Option (Solver × Int)
  | 0, _ => none
  | fuel + 1, s =>
    match propagateFuel (s.num_vars + 2) s with
    | none => none
    | some (s1, conflict) =>
      if conflict ≥ 0 then
        if s1.level = 0 then some (s1, UNSATcode)
        else
          match analyze s1 conflict.toNat with
          | (s2, bt) => solveFuel fuel (backtrack s2 bt)
      else
        let v := decide s1
        if v = 0 then some (s1, SATcode)
        else solveFuel fuel (assign { s1 with level := s1.level + 1 } (v : Int) (s1.level + 1) (-1))

/-- One clause line of `parse_dimacs` (lines 333-341): tokens are read until
the terminating `0`, and only the first `MAX_LIT_BUF` of them are kept
(C's `if (count < MAX_LIT_BUF) lits[count++] = lit`). -/
def parseClauseLine (tokens : List Int) : List Int :=
  (tokens.takeWhile (· ≠ 0)).take MAX_LIT_BUF

/-- The clause lines of `parse_dimacs` (lines 333-342): each line contributes
its parsed literals, and a line with zero literals before the terminating
`0` is *not* added to the clause store (C's `if (count > 0) add_clause`). -/
def parseLines (lines : List (List Int)) : List (List Int) :=
  lines.foldl (fun acc line =>
    let c := parseClauseLine line
    if c.length > 0 then acc ++ [c] else acc) []

/-- Semantics: a total assignment evaluates a literal by the sign convention
of the data model (a positive literal is true iff its variable is). -/
def evalLit (M : Nat → Bool) (l : Int) : Bool :=
  if l > 0 then M l.natAbs else !(M l.natAbs)

/-- Semantics: a clause is the disjunction of its literals. -/
def evalClause (M : Nat → Bool) (c : List Int) : Bool :=
  c.any (evalLit M)

/-- Semantics: a CNF is the conjunction of its clauses. -/
def evalCnf (M : Nat → Bool) (cnf : List (List Int)) : Bool :=
  cnf.all (evalClause M)

/-- States reachable during `solve` (lines 245-260) on a parsed input: the
initial state, closed under the three state-changing steps the loop
performs — a `propagate` call, a decision (`solver.level++;
assign(var, solver.level, -1)` on the nonzero variable picked by
`decide`), and a conflict's `analyze` followed by `backtrack` to the
returned backjump level. -/
inductive Reach (cnf : List (List Int)) (nv : Nat) : Solver → Prop where
  | init : Reach cnf nv (initSolver cnf nv)
  | prop : ∀ {s s1 : Solver} {f : Nat} {r : Int},
      Reach cnf nv s → propagateFuel f s = some (s1, r) → Reach cnf nv s1
  | dec : ∀ {s : Solver}, Reach cnf nv s → decide s ≠ 0 →
      Reach cnf nv (assign { s with level := s.level + 1 } ((decide s : Nat) : Int) (s.level + 1) (-1))
  | confl : ∀ {s : Solver} {c : Nat}, Reach cnf nv s →
      Reach cnf nv (backtrack (analyze s c).1 (analyze s c).2)

/-! ### Concrete states exhibiting the MAX_LIT_BUF truncation

`truncCnf` is a satisfiable 259-clause input over 259 variables: unit
clauses over variables 1..256, the clause `258 -257 -1 .. -128` (259
literals would not fit on the C stack buffer, so each clause here has at
most 130 literals and parses unmodified), the clause
`259 -257 -129 .. -256`, and the clause `-258 -259`.  Running `solve` on
it: the first propagation fixes variables 1..256 at level 0, `decide`
picks 257 at level 1, propagation then forces 258 (reason clause 256) and
259 (reason clause 257) and reports clause 258 (`-258 -259`) as conflict.
`conflictState` is exactly the solver state at that moment (checked
against the embedded run).  `analyze` marks 259, 258 (from the conflict
clause), resolves both reasons, and ends with marked set
modelled by bits 1..257; the construction loop then keeps only the 256
smallest variables, dropping the single current-level variable 257, so the
learned clause is `truncLits` = `-1 .. -256` and the backjump level 0. -/

/-- The satisfiable input on which truncation derails the solver. -/
def truncCnf : List (List Int) :=
  ((List.range 256).map (fun i => [((i : Int) + 1)]))
  ++ [ (258 : Int) :: (-257 : Int) :: (List.range 128).map (fun i => -((i : Int) + 1)) ]
  ++ [ (259 : Int) :: (-257 : Int) :: (List.range 128).map (fun i => -((i : Int) + 129)) ]
  ++ [ [(-258 : Int), (-259 : Int)] ]

/-- A total assignment satisfying every clause of `truncCnf`. -/
def truncModel : Nat → Bool := fun v => if 1 ≤ v ∧ v ≤ 256 then true else false

/-- The truncated learned clause `-1 -2 .. -256` that `analyze` appends. -/
def truncLits : List Int := (List.range 256).map (fun i => -((i : Int) + 1))

/-- The solver state at the moment `solve` calls `analyze` on `truncCnf`:
variables 1..256 true at level 0 with reasons 0..255 (their unit clauses),
the decision 257 and the propagated 258 (reason 256) and 259 (reason 257)
true at level 1, trail `1..256, 257, 258, 259` (most recent first in the
embedding), current level 1, conflict clause index 258. -/
def conflictState : Solver :=
  { clauses := truncCnf, num_vars := 259,
    assignment := fun v => if 1 ≤ v ∧ v ≤ 259 then 1 else -1,
    level_of := fun v => if 257 ≤ v ∧ v ≤ 259 then 1 else 0,
    reason := fun v =>
      if v = 0 then -1 else if v ≤ 256 then (v : Int) - 1
      else if v = 257 then -1 else if v = 258 then 256
      else if v = 259 then 257 else -1,
    trail := [259, 258, 257] ++ (List.range 256).reverse.map (fun i => ((i : Int) + 1)),
    level := 1 }

/-- How a propagation call changes the state: clauses, variable count and
decision level are untouched; every already-assigned variable keeps its
value, level and reason (so no assignment is ever overwritten); the trail
grows by a block of new literals, each of whose variables was unassigned
before the call, is assigned after it at the current decision level, and
is assigned at most once (the new block repeats no variable); and every
variable assigned after the call was either assigned before it or is one
of the new block's variables. -/
def Extends (s s1 : Solver) : Prop :=
  s1.num_vars = s.num_vars ∧ s1.clauses = s.clauses ∧ s1.level = s.level ∧
  (∀ v, s.assignment v ≠ UNASSIGNED →
    s1.assignment v = s.assignment v ∧ s1.level_of v = s.level_of v ∧
    s1.reason v = s.reason v) ∧
  ∃ new : List Int, s1.trail = new ++ s.trail ∧
    (∀ l, l ∈ new → s.assignment l.natAbs = UNASSIGNED ∧
      s1.assignment l.natAbs ≠ UNASSIGNED ∧ s1.level_of l.natAbs = s.level) ∧
    (new.map (fun l => l.natAbs)).Nodup ∧
    (∀ v, s1.assignment v ≠ UNASSIGNED →
      s.assignment v ≠ UNASSIGNED ∨ v ∈ new.map (fun l => l.natAbs))

/-- The trail invariants of reachable states: every trail variable's level
is at most the current level; trail levels are non-increasing from the
most recent entry (that is, non-decreasing in assignment order); no
variable occurs twice on the trail; and a variable is on the trail exactly
when it is assigned. -/
def TrailInv (s : Solver) : Prop :=
  (∀ l, l ∈ s.trail → s.level_of l.natAbs ≤ s.level) ∧
  s.trail.Pairwise (fun x y => s.level_of y.natAbs ≤ s.level_of x.natAbs) ∧
  (s.trail.map (fun l => l.natAbs)).Nodup ∧
  (∀ v, v ∈ s.trail.map (fun l => l.natAbs) ↔ s.assignment v ≠ UNASSIGNED)

/-! ### Small concrete states used to instantiate the theorems -/

/-- A two-clause input whose propagation at level 0 assigns variable 1 and
then finds clause 1 falsified. -/
def exConfl : Solver := initSolver [[1], [-1]] 1

/-- The state and conflict index `propagate` returns on `exConfl`. -/
def exConflRun : Solver × Int := (propagateFuel 2 exConfl).getD (exConfl, 0)

/-- A state at decision level 1 about to propagate the unit clause
`-1 2` after the decision on variable 1. -/
def exProp : Solver :=
  assign { (initSolver [[-1, 2]] 2) with level := 1 } 1 1 (-1)

/-- The state `propagate` returns on `exProp` (it assigns variable 2). -/
def exPropS1 : Solver := ((propagateFuel 2 exProp).getD (exProp, 0)).1

/-- The state `propagate` returns on the input with unit clauses `1`, `2`:
both variables assigned at level 0, trail of length two. -/
def exReach : Solver :=
  ((propagateFuel 3 (initSolver [[1], [2]] 2)).getD (initSolver [] 0, 0)).1

/-- A state with variable 2 assigned at level 0 and variable 1 decided at
level 1, used to exercise `backtrack`. -/
def exBt : Solver :=
  assign { (assign (initSolver [[1], [2]] 2) 2 0 (-1)) with level := 1 } 1 1 (-1)

/-- A state at level 1 whose clause 0 (`-1`) is falsified by the level-1
decision on variable 1 (variable 2 is assigned at level 0), used to
exercise `analyze`. -/
def exAn : Solver :=
  { clauses := [[-1], [1, -2]], num_vars := 2,
    assignment := fun v => if v = 1 then 1 else if v = 2 then 1 else -1,
    level_of := fun v => if v = 1 then 1 else 0,
    reason := fun _ => -1,
    trail := [1, 2], level := 1 }

end CDCL

namespace CDCL

/-! ### Helper lemmas: evaluation of `analyze` at `conflictState` -/

set_option maxRecDepth 100000 in
/-- The final marked set at `conflictState`: variables 1..259 touched,
variables 1..257 marked, one marked variable (257) at the current level. -/
theorem analyzeFinalMark_conflictState :
    analyzeFinalMark conflictState 258 =
      { touched := 2 ^ 260 - 2, seen := 2 ^ 258 - 2, counter := 1 } := by
  rfl

set_option maxRecDepth 100000 in
/-- Building the learned clause from the final marked set keeps only the
256 smallest marked variables and computes backjump level 0. -/
theorem buildLearned_conflictState :
    buildLearned conflictState { touched := 2 ^ 260 - 2, seen := 2 ^ 258 - 2, counter := 1 } =
      (truncLits, 0) := by
  rfl

/-- Running `analyze` at `conflictState` appends `truncLits`, backjump level 0. -/
theorem analyze_conflictState :
    analyze conflictState 258 = (add_clause conflictState truncLits, 0) := by
  simp only [analyze, analyzeFinalMark_conflictState, buildLearned_conflictState]

set_option maxRecDepth 100000 in
/-- Continuing the interrupted `solve` loop body after the learned clause is
added and the solver backjumps: the next propagation pass finds the
truncated clause falsified at level 0, so `solve` returns UNSAT. -/
theorem solve_after_conflictState :
    (solveFuel 2 (backtrack (add_clause conflictState truncLits) 0)).map Prod.snd =
      some UNSATcode := by
  rfl

/-! ### The claims on the truncating analyzer -/

set_option maxRecDepth 300000 in
set_option maxHeartbeats 40000000 in
/-- C1.  Answer soundness fails on the code: `truncCnf` is satisfiable (the
model `truncModel` makes every clause true), yet running `solve` on the
parsed initial state returns UNSAT.  In the run, the only conflict is
found at `conflictState` on clause 258 at level 1; the analyzer's
MAX_LIT_BUF truncation then drops the asserting literal `-257` from the
learned clause, leaving the clause `-1 .. -256`, which is falsified at
level 0, so the next propagation pass conflicts at level 0. -/
theorem C1_answer_soundness_fails :
    evalCnf truncModel truncCnf = true ∧
    (solveFuel 6 (initSolver truncCnf 259)).map Prod.snd = some UNSATcode := by
  exact ⟨by rfl, by rfl⟩

set_option maxRecDepth 100000 in
/-- C2.  Learned-clause entailment fails on the code: at `conflictState`
(the state `solve` reaches on the input `truncCnf`, whose clause store
still holds exactly the initial clauses), the clause that `analyze`
appends to the store is `truncLits`, and the total assignment `truncModel`
satisfies every initial clause yet falsifies `truncLits` — so the learned
clause is not semantically entailed by the initial clause set. -/
theorem C2_learned_clause_not_entailed :
    (analyze conflictState 258).1.clauses.getLastD [] = truncLits ∧
    evalCnf truncModel conflictState.clauses = true ∧
    evalClause truncModel truncLits = false := by
  refine ⟨?_, by rfl, by rfl⟩
  rw [analyze_conflictState]
  rfl

set_option maxRecDepth 100000 in
/-- C4.  The one-asserting-literal property fails on the code: at
`conflictState` the current decision level is 1 and the conflict clause
258 is falsified (every literal evaluates to 0), yet the clause `analyze`
appends contains zero (not exactly one) literals whose variable is
assigned at level 1 — the construction loop dropped the asserting literal
`-257` because 256 lower-indexed marked variables filled `learned[]`
first. -/
theorem C4_no_current_level_literal :
    conflictState.level = 1 ∧
    (conflictState.clauses.getD 258 []).all (fun l => lit_value conflictState l == 0) = true ∧
    (((analyze conflictState 258).1.clauses.getLastD []).filter
        (fun l => conflictState.level_of l.natAbs == conflictState.level)).length = 0 := by
  refine ⟨rfl, by rfl, ?_⟩
  rw [analyze_conflictState]
  rfl

end CDCL

namespace CDCL

/-! ### C3: empty clauses in the input -/

/-- A pass over clauses containing the empty clause always reports a
conflict: the empty clause itself scans to zero unassigned literals and no
true literal, and every earlier outcome either recurses or is itself a
conflict. -/
theorem sweep_conflict_of_mem_nil :
    ∀ (cs : List (List Int)) (s : Solver) (i : Nat) (ch : Bool),
      [] ∈ cs → 0 ≤ (sweep s i cs ch).2.2
  | c :: rest, s, i, ch, hmem => by
    rcases List.mem_cons.mp hmem with hc | hrest
    · subst hc
      simp only [sweep, scanClause]
      exact Int.natCast_nonneg i
    · simp only [sweep]
      rcases hsc : scanClause s c 0 0 with ⟨sat, n, last⟩
      cases sat
      · match n with
        | 0 => simpa using Int.natCast_nonneg i
        | 1 => simpa using sweep_conflict_of_mem_nil rest _ _ _ hrest
        | _ + 2 => simpa using sweep_conflict_of_mem_nil rest _ _ _ hrest
      · simpa using sweep_conflict_of_mem_nil rest _ _ _ hrest

/-- A pass never changes the current decision level. -/
theorem sweep_level :
    ∀ (cs : List (List Int)) (s : Solver) (i : Nat) (ch : Bool),
      (sweep s i cs ch).1.level = s.level
  | [], _, _, _ => rfl
  | c :: rest, s, i, ch => by
    simp only [sweep]
    rcases hsc : scanClause s c 0 0 with ⟨sat, n, last⟩
    cases sat
    · match n with
      | 0 => rfl
      | 1 => simpa [assign] using sweep_level rest _ _ _
      | _ + 2 => simpa using sweep_level rest _ _ _
    · simpa using sweep_level rest _ _ _

/-- With an empty clause in the store, the first propagation pass reports a
conflict and leaves the decision level unchanged. -/
theorem propagateFuel_of_mem_nil (s : Solver) (f : Nat) (hf : 1 ≤ f)
    (hmem : [] ∈ s.clauses) :
    ∃ s1 j, propagateFuel f s = some (s1, j) ∧ 0 ≤ j ∧ s1.level = s.level := by
  obtain ⟨k, rfl⟩ := Nat.exists_eq_add_of_le hf
  rw [Nat.add_comm 1 k]
  rcases hsw : sweep s 0 s.clauses false with ⟨s1, ch, confl⟩
  have h0 : 0 ≤ confl := by
    have h := sweep_conflict_of_mem_nil s.clauses s 0 false hmem
    rw [hsw] at h; exact h
  have hlev : s1.level = s.level := by
    have h := sweep_level s.clauses s 0 false
    rw [hsw] at h; exact h
  refine ⟨s1, confl, ?_, h0, hlev⟩
  simp only [propagateFuel]
  rw [hsw]
  simp [h0]

/-- The fold of `parseLines` never inserts an empty clause. -/
theorem parseLines_no_nil_aux :
    ∀ (lines : List (List Int)) (acc : List (List Int)), [] ∉ acc →
      [] ∉ lines.foldl (fun acc line =>
        let c := parseClauseLine line
        if c.length > 0 then acc ++ [c] else acc) acc
  | [], _, hacc => hacc
  | line :: rest, acc, hacc => by
    simp only [List.foldl_cons]
    apply parseLines_no_nil_aux rest
    by_cases hc : (parseClauseLine line).length > 0
    · simp only [if_pos hc]
      intro hmem
      rcases List.mem_append.mp hmem with h | h
      · exact hacc h
      · rcases List.mem_singleton.mp h with h
        rw [← h] at hc
        simp at hc
    · simpa [if_neg hc] using hacc

set_option maxRecDepth 4000 in
/-- C3 (counterexample).  A clause line with zero literals before the
terminating `0` is dropped by the parser, so the clause store stays empty
and `solve` returns SAT — not, as the claim states, UNSAT with the empty
clause admitted into the store. -/
theorem C3_empty_clause_line_gives_SAT :
    parseLines [[0]] = [] ∧
    (solveFuel 2 (initSolver (parseLines [[0]]) 1)).map Prod.snd = some SATcode := by
  exact ⟨rfl, rfl⟩

/-- C3 (amended).  The parser never admits an empty clause into the store
(`if (count > 0) add_clause`, line 342); however, whenever the clause
store does contain an empty clause, the first propagation pass reports a
conflict at decision level 0 and `solve` returns UNSAT. -/
theorem C3_empty_clause_dropped_but_conflicts :
    (∀ lines : List (List Int), [] ∉ parseLines lines) ∧
    (∀ (cs : List (List Int)) (nv f : Nat), [] ∈ cs → 1 ≤ f →
      (solveFuel f (initSolver cs nv)).map Prod.snd = some UNSATcode) := by
  constructor
  · intro lines
    exact parseLines_no_nil_aux lines [] (by simp)
  · intro cs nv f hmem hf
    obtain ⟨k, rfl⟩ := Nat.exists_eq_add_of_le hf
    rw [Nat.add_comm 1 k]
    obtain ⟨s1, j, hp, hj, hlev⟩ :=
      propagateFuel_of_mem_nil (initSolver cs nv) ((initSolver cs nv).num_vars + 2)
        (by omega) hmem
    simp only [solveFuel]
    rw [hp]
    have hlev0 : s1.level = 0 := by rw [hlev]; rfl
    simp [hj, hlev0]

/-- Witness for C3's amended theorem at concrete inputs. -/
theorem C3_empty_clause_dropped_but_conflicts_witness :
    ([] ∉ parseLines [[0]]) ∧
    (solveFuel 1 (initSolver [[]] 0)).map Prod.snd = some UNSATcode :=
  ⟨C3_empty_clause_dropped_but_conflicts.1 [[0]],
   C3_empty_clause_dropped_but_conflicts.2 [[]] 0 1 (List.mem_singleton.mpr rfl) (le_refl 1)⟩

end CDCL

namespace CDCL

/-! ### C7: the frame effect of `backtrack` -/

/-- Specification of the pop loop `btAux` on a level-monotone,
duplicate-free trail: the resulting trail is exactly the entries at level
at most `L` (a suffix of the head-first trail, so the kept entries keep
their positions); every popped variable is reset to UNASSIGNED value,
level 0, decision reason; every variable all of whose trail occurrences
are at level at most `L` — in particular every variable not on the
trail — keeps its value, level and reason. -/
theorem btAux_spec (L : Nat) (t : List Int) :
    ∀ (a : Nat → Int) (lo : Nat → Nat) (r : Nat → Int),
      t.Pairwise (fun x y => lo y.natAbs ≤ lo x.natAbs) →
      (t.map (fun l => l.natAbs)).Nodup →
      (btAux L t a lo r).1 = t.filter (fun l => Decidable.decide (lo l.natAbs ≤ L)) ∧
      List.IsSuffix (btAux L t a lo r).1 t ∧
      (∀ l, l ∈ t → L < lo l.natAbs →
        (btAux L t a lo r).2.1 l.natAbs = UNASSIGNED ∧
        (btAux L t a lo r).2.2.1 l.natAbs = 0 ∧
        (btAux L t a lo r).2.2.2 l.natAbs = -1) ∧
      (∀ v, (∀ l, l ∈ t → l.natAbs = v → lo v ≤ L) →
        (btAux L t a lo r).2.1 v = a v ∧
        (btAux L t a lo r).2.2.1 v = lo v ∧
        (btAux L t a lo r).2.2.2 v = r v) := by
  induction t with
  | nil =>
    intro a lo r _ _
    refine ⟨rfl, List.nil_suffix, ?_, fun v _ => ⟨rfl, rfl, rfl⟩⟩
    intro l hl
    cases hl
  | cons lit rest ih =>
    intro a lo r hmono hnodup
    rw [List.pairwise_cons] at hmono
    obtain ⟨hhead, htail⟩ := hmono
    rw [List.map_cons, List.nodup_cons] at hnodup
    obtain ⟨hnotin, hnodup1⟩ := hnodup
    by_cases h : lo lit.natAbs ≤ L
    · have hbt : btAux L (lit :: rest) a lo r = (lit :: rest, a, lo, r) := by
        simp [btAux, h]
      rw [hbt]
      refine ⟨?_, List.suffix_refl _, ?_, fun v _ => ⟨rfl, rfl, rfl⟩⟩
      · rw [List.filter_cons_of_pos (by simpa using h)]
        rw [List.filter_eq_self.mpr]
        intro y hy
        simpa using le_trans (hhead y hy) h
      · intro l hl hL
        rcases List.mem_cons.mp hl with hl | hl
        · rw [hl] at hL; omega
        · have := le_trans (hhead l hl) h; omega
    · have hbt : btAux L (lit :: rest) a lo r =
          btAux L rest
            (fun w => if w = lit.natAbs then UNASSIGNED else a w)
            (fun w => if w = lit.natAbs then 0 else lo w)
            (fun w => if w = lit.natAbs then -1 else r w) := by
        simp [btAux, h]
      have hne : ∀ y ∈ rest, y.natAbs ≠ lit.natAbs := by
        intro y hy heq
        exact hnotin (heq ▸ List.mem_map_of_mem (fun l => l.natAbs) hy)
      have hlo1 : ∀ y ∈ rest, (fun w => if w = lit.natAbs then 0 else lo w) y.natAbs = lo y.natAbs := by
        intro y hy
        simp [hne y hy]
      have hmono1 : rest.Pairwise (fun x y =>
          (fun w => if w = lit.natAbs then 0 else lo w) y.natAbs ≤
          (fun w => if w = lit.natAbs then 0 else lo w) x.natAbs) := by
        refine List.Pairwise.imp_of_mem ?_ htail
        intro x y hx hy hxy
        simpa [hlo1 x hx, hlo1 y hy] using hxy
      obtain ⟨hfil, hsuf, hpop, hkeep⟩ :=
        ih (fun w => if w = lit.natAbs then UNASSIGNED else a w)
          (fun w => if w = lit.natAbs then 0 else lo w)
          (fun w => if w = lit.natAbs then -1 else r w) hmono1 hnodup1
      rw [hbt]
      refine ⟨?_, ?_, ?_, ?_⟩
      · rw [List.filter_cons_of_neg (by simpa using h), hfil]
        apply List.filter_congr
        intro y hy
        simp [hlo1 y hy]
      · exact hsuf.trans (List.suffix_cons lit rest)
      · intro l hl hL
        rcases List.mem_cons.mp hl with hl | hl
        · subst hl
          have := hkeep l.natAbs (by
            intro y hy heq
            exact absurd heq (hne y hy))
          simpa using this
        · have hres := hpop l hl (by simpa [hlo1 l hl] using hL)
          exact hres
      · intro v hv
        have hvne : v ≠ lit.natAbs := by
          intro hveq
          exact h (hveq ▸ hv lit (List.mem_cons_self lit rest) hveq.symm)
        have := hkeep v (by
          intro y hy heq
          have := hv y (List.mem_cons_of_mem lit hy) heq
          simpa [hvne] using this)
        simpa [hvne] using this

/-- C7.  On a level-monotone, duplicate-free trail (both are invariants of
reachable states, see C8), `backtrack L` pops exactly the trail entries
whose variable's level exceeds `L` — the kept entries are the trail suffix
of entries at level at most `L`, in their original positions — resetting
each popped variable's value to UNASSIGNED, level to 0 and reason to the
decision marker `-1`, leaving value, level and reason of every other
variable unchanged, and setting the current level to `L`. -/
theorem C7_backtrack_frame (s : Solver) (L : Nat)
    (hmono : s.trail.Pairwise (fun x y => s.level_of y.natAbs ≤ s.level_of x.natAbs))
    (hnodup : (s.trail.map (fun l => l.natAbs)).Nodup) :
    (backtrack s L).trail = s.trail.filter (fun l => Decidable.decide (s.level_of l.natAbs ≤ L)) ∧
    List.IsSuffix (backtrack s L).trail s.trail ∧
    (∀ l, l ∈ s.trail → L < s.level_of l.natAbs →
      (backtrack s L).assignment l.natAbs = UNASSIGNED ∧
      (backtrack s L).level_of l.natAbs = 0 ∧
      (backtrack s L).reason l.natAbs = -1) ∧
    (∀ v, (∀ l, l ∈ s.trail → l.natAbs = v → s.level_of v ≤ L) →
      (backtrack s L).assignment v = s.assignment v ∧
      (backtrack s L).level_of v = s.level_of v ∧
      (backtrack s L).reason v = s.reason v) ∧
    (backtrack s L).level = L := by
  obtain ⟨hfil, hsuf, hpop, hkeep⟩ :=
    btAux_spec L s.trail s.assignment s.level_of s.reason hmono hnodup
  rcases hb : btAux L s.trail s.assignment s.level_of s.reason with ⟨t, a, lo, r⟩
  rw [hb] at hfil hsuf hpop hkeep
  have hbk : backtrack s L =
      { s with trail := t, assignment := a, level_of := lo, reason := r, level := L } := by
    simp [backtrack, hb]
  rw [hbk]
  exact ⟨hfil, hsuf, hpop, hkeep, rfl⟩

end CDCL

namespace CDCL

/-! ### C6: the propagate contract -/

/-- A literal evaluates to UNASSIGNED exactly when its variable does. -/
theorem lit_value_unassigned_iff (s : Solver) (l : Int) :
    lit_value s l = UNASSIGNED ↔ s.assignment l.natAbs = UNASSIGNED := by
  simp only [lit_value]
  by_cases h : s.assignment l.natAbs = UNASSIGNED
  · simp [h]
  · simp only [if_neg h]
    constructor
    · intro hv
      by_cases hl : l > 0
      · rw [if_pos hl] at hv; exact absurd hv h
      · rw [if_neg hl] at hv
        simp only [bnot] at hv
        by_cases h0 : s.assignment l.natAbs = 0 <;> simp [h0, UNASSIGNED] at hv
    · intro hv; exact absurd hv h

/-- When the per-variable values are three-valued (as in every state the
solver builds), so is every literal value. -/
theorem lit_value_cases (s : Solver)
    (hval : ∀ v, s.assignment v = UNASSIGNED ∨ s.assignment v = 0 ∨ s.assignment v = 1)
    (l : Int) :
    lit_value s l = UNASSIGNED ∨ lit_value s l = 0 ∨ lit_value s l = 1 := by
  simp only [lit_value]
  rcases hval l.natAbs with h | h | h
  · simp [h]
  · rw [h]
    by_cases hl : l > 0 <;> simp [hl, bnot, UNASSIGNED]
  · rw [h]
    by_cases hl : l > 0 <;> simp [hl, bnot, UNASSIGNED]

/-- Specification of the clause scan when it finds no true literal: no
literal of the clause is true, the unassigned count grows by the number of
unassigned literals of the clause, and when it grew the reported last
literal is an unassigned literal of the clause (unchanged otherwise). -/
theorem scanClause_false_spec (s : Solver) :
    ∀ (c : List Int) (n : Nat) (last : Int) (n1 : Nat) (last1 : Int),
      scanClause s c n last = (false, n1, last1) →
      (∀ l, l ∈ c → lit_value s l ≠ 1) ∧
      n1 = n + (c.filter (fun l => Decidable.decide (lit_value s l = UNASSIGNED))).length ∧
      (n < n1 → last1 ∈ c ∧ lit_value s last1 = UNASSIGNED) ∧
      (n1 = n → last1 = last)
  | [], n, last, n1, last1 => by
    intro h
    simp only [scanClause, Prod.mk.injEq] at h
    obtain ⟨-, hn, hl⟩ := h
    subst hn
    subst hl
    refine ⟨?_, by simp, ?_, fun _ => rfl⟩
    · intro l hl1; cases hl1
    · intro hlt; exact absurd hlt (lt_irrefl _)
  | l :: rest, n, last, n1, last1 => by
    intro h
    simp only [scanClause] at h
    by_cases hv1 : lit_value s l = 1
    · rw [if_pos hv1] at h
      simp at h
    · rw [if_neg hv1] at h
      by_cases hvu : lit_value s l = UNASSIGNED
      · rw [if_pos hvu] at h
        obtain ⟨hne, hcount, hlast, hlasteq⟩ := scanClause_false_spec s rest (n + 1) l n1 last1 h
        have hcount1 : n1 = n + ((l :: rest).filter
            (fun l => Decidable.decide (lit_value s l = UNASSIGNED))).length := by
          rw [List.filter_cons_of_pos (by simpa using hvu)]
          simp only [List.length_cons]
          omega
        refine ⟨?_, hcount1, ?_, ?_⟩
        · intro x hx
          rcases List.mem_cons.mp hx with hx | hx
          · rw [hx]; exact hv1
          · exact hne x hx
        · intro _
          by_cases hgrow : n + 1 < n1
          · obtain ⟨hmem, hu⟩ := hlast hgrow
            exact ⟨List.mem_cons_of_mem l hmem, hu⟩
          · have : n1 = n + 1 := by omega
            rw [hlasteq this]
            exact ⟨List.mem_cons_self l rest, hvu⟩
        · intro hn1
          omega
      · rw [if_neg hvu] at h
        obtain ⟨hne, hcount, hlast, hlasteq⟩ := scanClause_false_spec s rest n last n1 last1 h
        have hcount1 : n1 = n + ((l :: rest).filter
            (fun l => Decidable.decide (lit_value s l = UNASSIGNED))).length := by
          rw [List.filter_cons_of_neg (by simpa using hvu)]
          exact hcount
        refine ⟨?_, hcount1, ?_, hlasteq⟩
        · intro x hx
          rcases List.mem_cons.mp hx with hx | hx
          · rw [hx]; exact hv1
          · exact hne x hx
        · intro hgrow
          obtain ⟨hmem, hu⟩ := hlast hgrow
          exact ⟨List.mem_cons_of_mem l hmem, hu⟩

/-- When the clause scan reports a true literal, the clause contains one. -/
theorem scanClause_true_spec (s : Solver) :
    ∀ (c : List Int) (n : Nat) (last : Int) (n1 : Nat) (last1 : Int),
      scanClause s c n last = (true, n1, last1) →
      ∃ l, l ∈ c ∧ lit_value s l = 1
  | [], n, last, n1, last1 => by
    intro h
    simp [scanClause] at h
  | l :: rest, n, last, n1, last1 => by
    intro h
    simp only [scanClause] at h
    by_cases hv1 : lit_value s l = 1
    · exact ⟨l, List.mem_cons_self l rest, hv1⟩
    · rw [if_neg hv1] at h
      by_cases hvu : lit_value s l = UNASSIGNED
      · rw [if_pos hvu] at h
        obtain ⟨x, hx, hx1⟩ := scanClause_true_spec s rest (n + 1) l n1 last1 h
        exact ⟨x, List.mem_cons_of_mem l hx, hx1⟩
      · rw [if_neg hvu] at h
        obtain ⟨x, hx, hx1⟩ := scanClause_true_spec s rest n last n1 last1 h
        exact ⟨x, List.mem_cons_of_mem l hx, hx1⟩

end CDCL

namespace CDCL

/-- A pass does not change the clause store. -/
theorem sweep_clauses :
    ∀ (cs : List (List Int)) (s : Solver) (i : Nat) (ch : Bool),
      (sweep s i cs ch).1.clauses = s.clauses
  | [], _, _, _ => rfl
  | c :: rest, s, i, ch => by
    simp only [sweep]
    rcases hsc : scanClause s c 0 0 with ⟨sat, n, last⟩
    cases sat
    · match n with
      | 0 => rfl
      | 1 => simpa [assign] using sweep_clauses rest _ _ _
      | _ + 2 => simpa using sweep_clauses rest _ _ _
    · simpa using sweep_clauses rest _ _ _

/-- A pass keeps the three-valuedness of the per-variable values. -/
theorem sweep_vals :
    ∀ (cs : List (List Int)) (s : Solver) (i : Nat) (ch : Bool),
      (∀ v, s.assignment v = UNASSIGNED ∨ s.assignment v = 0 ∨ s.assignment v = 1) →
      ∀ v, (sweep s i cs ch).1.assignment v = UNASSIGNED ∨
        (sweep s i cs ch).1.assignment v = 0 ∨ (sweep s i cs ch).1.assignment v = 1
  | [], _, _, _, hval => hval
  | c :: rest, s, i, ch, hval => by
    simp only [sweep]
    rcases hsc : scanClause s c 0 0 with ⟨sat, n, last⟩
    cases sat
    · match n with
      | 0 => exact hval
      | 1 =>
        refine sweep_vals rest _ _ _ ?_
        intro v
        simp only [assign]
        by_cases hv : v = last.natAbs
        · by_cases hpos : last > 0 <;> simp [hv, hpos]
        · simpa [hv] using hval v
      | _ + 2 => exact sweep_vals rest _ _ _ hval
    · exact sweep_vals rest _ _ _ hval

/-- A pass that starts with the changed flag raised keeps it raised. -/
theorem sweep_changed_true :
    ∀ (cs : List (List Int)) (s : Solver) (i : Nat),
      (sweep s i cs true).2.1 = true
  | [], _, _ => rfl
  | c :: rest, s, i => by
    simp only [sweep]
    rcases hsc : scanClause s c 0 0 with ⟨sat, n, last⟩
    cases sat
    · match n with
      | 0 => rfl
      | 1 => simpa using sweep_changed_true rest _ _
      | _ + 2 => simpa using sweep_changed_true rest _ _
    · simpa using sweep_changed_true rest _ _

/-- A pass returns either `-1` or a clause index. -/
theorem sweep_confl_cases :
    ∀ (cs : List (List Int)) (s : Solver) (i : Nat) (ch : Bool),
      (sweep s i cs ch).2.2 = -1 ∨ 0 ≤ (sweep s i cs ch).2.2
  | [], _, _, _ => Or.inl rfl
  | c :: rest, s, i, ch => by
    simp only [sweep]
    rcases hsc : scanClause s c 0 0 with ⟨sat, n, last⟩
    cases sat
    · match n with
      | 0 => simpa using Or.inr (Int.natCast_nonneg i)
      | 1 => simpa using sweep_confl_cases rest _ _ _
      | _ + 2 => simpa using sweep_confl_cases rest _ _ _
    · simpa using sweep_confl_cases rest _ _ _

/-- A pass that made no progress left the state untouched, and if it also
reported no conflict then every clause it scanned (in that very state) is
satisfied or has at least two unassigned literals. -/
theorem sweep_unchanged_spec :
    ∀ (cs : List (List Int)) (s : Solver) (i : Nat) (s1 : Solver) (j : Int),
      sweep s i cs false = (s1, false, j) →
      s1 = s ∧ (j = -1 → ∀ c, c ∈ cs →
        (∃ l, l ∈ c ∧ lit_value s l = 1) ∨
        2 ≤ (c.filter (fun l => Decidable.decide (lit_value s l = UNASSIGNED))).length)
  | [], s, i, s1, j => by
    intro h
    simp only [sweep, Prod.mk.injEq] at h
    exact ⟨h.1.symm, fun _ c hc => absurd hc (List.not_mem_nil c)⟩
  | c :: rest, s, i, s1, j => by
    intro h
    simp only [sweep] at h
    rcases hsc : scanClause s c 0 0 with ⟨sat, n, last⟩
    rw [hsc] at h
    cases sat
    · rcases n with _ | _ | k
      · simp at h
        obtain ⟨hs, hj⟩ := h
        refine ⟨hs.symm, fun hj1 => ?_⟩
        exfalso
        omega
      · simp at h
        have hc1 := sweep_changed_true rest (assign s last s.level (i : Int)) (i + 1)
        rw [h] at hc1
        simp at hc1
      · simp at h
        obtain ⟨hs, hrest⟩ := sweep_unchanged_spec rest s (i + 1) s1 j h
        refine ⟨hs, fun hj1 d hd => ?_⟩
        rcases List.mem_cons.mp hd with hd | hd
        · subst hd
          obtain ⟨-, hcount, -, -⟩ := scanClause_false_spec s d 0 0 (k + 2) last hsc
          right
          omega
        · exact hrest hj1 d hd
    · simp only [if_pos rfl] at h
      obtain ⟨hs, hrest⟩ := sweep_unchanged_spec rest s (i + 1) s1 j h
      refine ⟨hs, fun hj1 d hd => ?_⟩
      rcases List.mem_cons.mp hd with hd | hd
      · subst hd
        obtain ⟨l, hl, hl1⟩ := scanClause_true_spec s d 0 0 n last hsc
        exact Or.inl ⟨l, hl, hl1⟩
      · exact hrest hj1 d hd

end CDCL

namespace CDCL

/-- When a pass reports a conflict, the reported index addresses a clause of
the scanned store, and in the state the pass returns (which is the state
in which that clause was scanned — the pass returns at once) that clause
has no true and no unassigned literal. -/
theorem sweep_conflict_spec :
    ∀ (cs : List (List Int)) (s : Solver) (i : Nat) (ch : Bool) (s1 : Solver)
      (ch1 : Bool) (j : Int),
      sweep s i cs ch = (s1, ch1, j) → 0 ≤ j →
      ∃ k, k < cs.length ∧ j = ((i + k : Nat) : Int) ∧
        ∀ l, l ∈ cs.getD k [] → lit_value s1 l ≠ 1 ∧ lit_value s1 l ≠ UNASSIGNED
  | [], s, i, ch, s1, ch1, j => by
    intro h hj
    simp only [sweep, Prod.mk.injEq] at h
    exfalso
    omega
  | c :: rest, s, i, ch, s1, ch1, j => by
    intro h hj
    simp only [sweep] at h
    rcases hsc : scanClause s c 0 0 with ⟨sat, n, last⟩
    rw [hsc] at h
    cases sat
    · rcases n with _ | _ | k
      · simp at h
        obtain ⟨hs, hch, hjj⟩ := h
        refine ⟨0, by simp, by omega, ?_⟩
        intro l hl
        simp only [List.getD_cons_zero] at hl
        obtain ⟨hne, hcount, -, -⟩ := scanClause_false_spec s c 0 0 0 last hsc
        subst hs
        refine ⟨hne l hl, ?_⟩
        intro hu
        have hmem : l ∈ c.filter (fun l => Decidable.decide (lit_value s l = UNASSIGNED)) :=
          List.mem_filter.mpr ⟨hl, by simpa using hu⟩
        have : c.filter (fun l => Decidable.decide (lit_value s l = UNASSIGNED)) = [] :=
          List.length_eq_zero.mp (by omega)
        rw [this] at hmem
        cases hmem
      · simp at h
        obtain ⟨k, hk, hjj, hc⟩ :=
          sweep_conflict_spec rest (assign s last s.level (i : Int)) (i + 1) true s1 ch1 j h hj
        refine ⟨k + 1, by simpa using hk, by omega, ?_⟩
        simpa using hc
      · simp at h
        obtain ⟨k1, hk, hjj, hc⟩ := sweep_conflict_spec rest s (i + 1) ch s1 ch1 j h hj
        refine ⟨k1 + 1, by simpa using hk, by omega, ?_⟩
        simpa using hc
    · simp only [if_pos rfl] at h
      obtain ⟨k, hk, hjj, hc⟩ := sweep_conflict_spec rest s (i + 1) ch s1 ch1 j h hj
      refine ⟨k + 1, by simpa using hk, by omega, ?_⟩
      simpa using hc

/-- Propagation does not change the clause store. -/
theorem propagateFuel_clauses :
    ∀ (f : Nat) (s s1 : Solver) (r : Int),
      propagateFuel f s = some (s1, r) → s1.clauses = s.clauses
  | 0, s, s1, r => by intro h; cases h
  | f + 1, s, s1, r => by
    intro h
    simp only [propagateFuel] at h
    rcases hsw : sweep s 0 s.clauses false with ⟨s2, ch, confl⟩
    rw [hsw] at h
    have hcl : s2.clauses = s.clauses := by
      have hc := sweep_clauses s.clauses s 0 false
      rw [hsw] at hc; exact hc
    by_cases hge : confl ≥ 0
    · rw [if_pos hge] at h
      simp only [Option.some.injEq, Prod.mk.injEq] at h
      rw [← h.1]
      exact hcl
    · rw [if_neg hge] at h
      cases ch
      · simp only [Bool.false_eq_true, if_false, Option.some.injEq, Prod.mk.injEq] at h
        rw [← h.1]
        exact hcl
      · simp only [if_pos rfl] at h
        rw [propagateFuel_clauses f s2 s1 r h]
        exact hcl

/-- Propagation keeps the three-valuedness of the per-variable values. -/
theorem propagateFuel_vals :
    ∀ (f : Nat) (s s1 : Solver) (r : Int),
      propagateFuel f s = some (s1, r) →
      (∀ v, s.assignment v = UNASSIGNED ∨ s.assignment v = 0 ∨ s.assignment v = 1) →
      ∀ v, s1.assignment v = UNASSIGNED ∨ s1.assignment v = 0 ∨ s1.assignment v = 1
  | 0, s, s1, r => by intro h; cases h
  | f + 1, s, s1, r => by
    intro h hval
    simp only [propagateFuel] at h
    rcases hsw : sweep s 0 s.clauses false with ⟨s2, ch, confl⟩
    rw [hsw] at h
    have hv2 : ∀ v, s2.assignment v = UNASSIGNED ∨ s2.assignment v = 0 ∨ s2.assignment v = 1 := by
      have hc := sweep_vals s.clauses s 0 false hval
      rw [hsw] at hc; exact hc
    by_cases hge : confl ≥ 0
    · rw [if_pos hge] at h
      simp only [Option.some.injEq, Prod.mk.injEq] at h
      rw [← h.1]
      exact hv2
    · rw [if_neg hge] at h
      cases ch
      · simp only [Bool.false_eq_true, if_false, Option.some.injEq, Prod.mk.injEq] at h
        rw [← h.1]
        exact hv2
      · simp only [if_pos rfl] at h
        exact propagateFuel_vals f s2 s1 r h hv2

end CDCL

namespace CDCL

/-- When `propagate` reports no conflict, every clause of the store is
satisfied or has at least two unassigned literals in the returned state. -/
theorem propagateFuel_noconflict_spec :
    ∀ (f : Nat) (s s1 : Solver),
      propagateFuel f s = some (s1, -1) →
      ∀ c, c ∈ s1.clauses →
        (∃ l, l ∈ c ∧ lit_value s1 l = 1) ∨
        2 ≤ (c.filter (fun l => Decidable.decide (lit_value s1 l = UNASSIGNED))).length
  | 0, s, s1 => by intro h; cases h
  | f + 1, s, s1 => by
    intro h
    simp only [propagateFuel] at h
    rcases hsw : sweep s 0 s.clauses false with ⟨s2, ch, confl⟩
    rw [hsw] at h
    by_cases hge : confl ≥ 0
    · rw [if_pos hge] at h
      simp only [Option.some.injEq, Prod.mk.injEq] at h
      exfalso
      omega
    · rw [if_neg hge] at h
      cases ch
      · simp only [Bool.false_eq_true, if_false, Option.some.injEq, Prod.mk.injEq] at h
        have hconfl : confl = -1 := by
          have hc := sweep_confl_cases s.clauses s 0 false
          rw [hsw] at hc
          rcases hc with hc | hc
          · exact hc
          · exact absurd hc hge
        subst hconfl
        obtain ⟨hs2, hrest⟩ := sweep_unchanged_spec s.clauses s 0 s2 (-1) hsw
        obtain ⟨hs1, -⟩ := h
        rw [← hs1, hs2]
        exact hrest rfl
      · simp only [if_pos rfl] at h
        exact propagateFuel_noconflict_spec f s2 s1 h

/-- When `propagate` reports a conflict, the clause at the reported index is
falsified in the returned state: no literal is true and none is
unassigned. -/
theorem propagateFuel_conflict_spec :
    ∀ (f : Nat) (s s1 : Solver) (j : Int),
      propagateFuel f s = some (s1, j) → 0 ≤ j →
      ∀ l, l ∈ s1.clauses.getD j.toNat [] →
        lit_value s1 l ≠ 1 ∧ lit_value s1 l ≠ UNASSIGNED
  | 0, s, s1, j => by intro h; cases h
  | f + 1, s, s1, j => by
    intro h hj
    simp only [propagateFuel] at h
    rcases hsw : sweep s 0 s.clauses false with ⟨s2, ch, confl⟩
    rw [hsw] at h
    by_cases hge : confl ≥ 0
    · rw [if_pos hge] at h
      simp only [Option.some.injEq, Prod.mk.injEq] at h
      obtain ⟨hs1, hjc⟩ := h
      obtain ⟨k, hk, hjj, hc⟩ :=
        sweep_conflict_spec s.clauses s 0 false s2 ch confl hsw (by omega)
      have hcl : s2.clauses = s.clauses := by
        have hcc := sweep_clauses s.clauses s 0 false
        rw [hsw] at hcc; exact hcc
      have hkt : j.toNat = k := by omega
      rw [← hs1, hkt, hcl]
      exact hc
    · rw [if_neg hge] at h
      cases ch
      · simp only [Bool.false_eq_true, if_false, Option.some.injEq, Prod.mk.injEq] at h
        exfalso
        omega
      · simp only [if_pos rfl] at h
        exact propagateFuel_conflict_spec f s2 s1 j h hj

/-- C6.  The propagate contract: starting from any state with three-valued
per-variable values, when `propagate` returns NoConflict (`-1`) every
clause in the store is satisfied (contains a literal evaluating to 1) or
has at least two unassigned literals under the returned assignment; and
when it returns a conflict index `r >= 0`, clause `r` is falsified — every
literal of it evaluates to 0 — under the returned assignment. -/
theorem C6_propagate_contract (f : Nat) (s s1 : Solver) (r : Int)
    (hval : ∀ v, s.assignment v = UNASSIGNED ∨ s.assignment v = 0 ∨ s.assignment v = 1)
    (hp : propagateFuel f s = some (s1, r)) :
    (r = -1 → ∀ c, c ∈ s1.clauses →
      (∃ l, l ∈ c ∧ lit_value s1 l = 1) ∨
      2 ≤ (c.filter (fun l => Decidable.decide (lit_value s1 l = UNASSIGNED))).length) ∧
    (0 ≤ r → ∀ l, l ∈ s1.clauses.getD r.toNat [] → lit_value s1 l = 0) := by
  constructor
  · intro hr
    subst hr
    exact propagateFuel_noconflict_spec f s s1 hp
  · intro hr l hl
    obtain ⟨hne1, hneu⟩ := propagateFuel_conflict_spec f s s1 r hp hr l hl
    rcases lit_value_cases s1 (propagateFuel_vals f s s1 r hp hval) l with h | h | h
    · exact absurd h hneu
    · exact h
    · exact absurd h hne1

/-- Witness for C6 on the concrete input `exConfl`: its propagation returns
conflict index 1, and the literal `-1` of clause 1 is false. -/
theorem C6_propagate_contract_witness :
    lit_value exConflRun.1 (-1) = 0 :=
  (C6_propagate_contract 2 exConfl exConflRun.1 1 (fun _ => Or.inl rfl) rfl).2
    (by decide) (-1) (by decide)

end CDCL

namespace CDCL

/-! ### C10: assign is only ever called on unassigned variables -/

/-- Doing nothing is an extension. -/
theorem Extends_refl (s : Solver) : Extends s s :=
  ⟨rfl, rfl, rfl, fun _ _ => ⟨rfl, rfl, rfl⟩, [], rfl,
   fun l hl => absurd hl (List.not_mem_nil l), List.nodup_nil,
   fun _ hv => Or.inl hv⟩

/-- Extensions compose. -/
theorem Extends_trans {s s1 s2 : Solver} (h1 : Extends s s1) (h2 : Extends s1 s2) :
    Extends s s2 := by
  obtain ⟨hn1, hc1, hl1, hpres1, new1, ht1, hprops1, hnd1, hconv1⟩ := h1
  obtain ⟨hn2, hc2, hl2, hpres2, new2, ht2, hprops2, hnd2, hconv2⟩ := h2
  refine ⟨hn2.trans hn1, hc2.trans hc1, hl2.trans hl1, ?_, new2 ++ new1, ?_, ?_, ?_, ?_⟩
  · intro v hv
    obtain ⟨ha1, hL1, hr1⟩ := hpres1 v hv
    have hv1 : s1.assignment v ≠ UNASSIGNED := by rw [ha1]; exact hv
    obtain ⟨ha2, hL2, hr2⟩ := hpres2 v hv1
    exact ⟨ha2.trans ha1, hL2.trans hL1, hr2.trans hr1⟩
  · rw [ht2, ht1, List.append_assoc]
  · intro l hl
    rcases List.mem_append.mp hl with hl | hl
    · obtain ⟨hu2, hna2, hlev2⟩ := hprops2 l hl
      refine ⟨?_, hna2, hlev2.trans hl1⟩
      by_contra hassigned
      have := (hpres1 l.natAbs hassigned).1
      rw [this] at hu2
      exact hassigned hu2
    · obtain ⟨hu1, hna1, hlev1⟩ := hprops1 l hl
      obtain ⟨ha2, hL2, -⟩ := hpres2 l.natAbs hna1
      exact ⟨hu1, by rw [ha2]; exact hna1, by rw [hL2]; exact hlev1⟩
  · rw [List.map_append]
    refine List.Nodup.append hnd2 hnd1 ?_
    intro v hv2 hv1
    obtain ⟨l2, hl2, hlv2⟩ := List.mem_map.mp hv2
    obtain ⟨l1, hl1m, hlv1⟩ := List.mem_map.mp hv1
    have hu2 := (hprops2 l2 hl2).1
    have hna1 := (hprops1 l1 hl1m).2.1
    rw [hlv2] at hu2
    rw [hlv1] at hna1
    exact hna1 hu2
  · intro v hv
    rcases hconv2 v hv with hv1 | hv1
    · rcases hconv1 v hv1 with hv0 | hv0
      · exact Or.inl hv0
      · exact Or.inr (by rw [List.map_append]; exact List.mem_append.mpr (Or.inr hv0))
    · exact Or.inr (by rw [List.map_append]; exact List.mem_append.mpr (Or.inl hv1))

/-- A single `assign` at the current level on an unassigned variable is an
extension. -/
theorem Extends_assign (s : Solver) (lit : Int) (rc : Int)
    (h : s.assignment lit.natAbs = UNASSIGNED) :
    Extends s (assign s lit s.level rc) := by
  refine ⟨rfl, rfl, rfl, ?_, [lit], rfl, ?_, by simp, ?_⟩
  · intro v hv
    have hvne : v ≠ lit.natAbs := by
      intro heq
      rw [heq] at hv
      exact hv h
    simp [assign, hvne]
  · intro l hl
    rcases List.mem_singleton.mp hl with rfl
    refine ⟨h, ?_, by simp [assign]⟩
    simp only [assign, if_pos rfl]
    by_cases hpos : l > 0 <;> simp [hpos, UNASSIGNED]
  · intro v hv
    by_cases hveq : v = lit.natAbs
    · exact Or.inr (by simp [hveq])
    · simp only [assign, if_neg hveq] at hv
      exact Or.inl hv

/-- A propagation pass only extends the state. -/
theorem sweep_extends :
    ∀ (cs : List (List Int)) (s : Solver) (i : Nat) (ch : Bool),
      Extends s (sweep s i cs ch).1
  | [], s, _, _ => Extends_refl s
  | c :: rest, s, i, ch => by
    simp only [sweep]
    rcases hsc : scanClause s c 0 0 with ⟨sat, n, last⟩
    cases sat
    · rcases n with _ | _ | k
      · simpa using Extends_refl s
      · obtain ⟨-, -, hlast, -⟩ := scanClause_false_spec s c 0 0 1 last hsc
        obtain ⟨hmem, hu⟩ := hlast (by omega)
        have hua : s.assignment last.natAbs = UNASSIGNED :=
          (lit_value_unassigned_iff s last).mp hu
        have hstep := Extends_assign s last (i : Int) hua
        have hrest := sweep_extends rest (assign s last s.level (i : Int)) (i + 1) true
        simpa using Extends_trans hstep hrest
      · simpa using sweep_extends rest s (i + 1) ch
    · simpa using sweep_extends rest s (i + 1) ch

/-- Propagation only extends the state. -/
theorem propagateFuel_extends :
    ∀ (f : Nat) (s s1 : Solver) (r : Int),
      propagateFuel f s = some (s1, r) → Extends s s1
  | 0, s, s1, r => by intro h; cases h
  | f + 1, s, s1, r => by
    intro h
    simp only [propagateFuel] at h
    rcases hsw : sweep s 0 s.clauses false with ⟨s2, ch, confl⟩
    rw [hsw] at h
    have hext : Extends s s2 := by
      have he := sweep_extends s.clauses s 0 false
      rw [hsw] at he; exact he
    by_cases hge : confl ≥ 0
    · rw [if_pos hge] at h
      simp only [Option.some.injEq, Prod.mk.injEq] at h
      rw [← h.1]
      exact hext
    · rw [if_neg hge] at h
      cases ch
      · simp only [Bool.false_eq_true, if_false, Option.some.injEq, Prod.mk.injEq] at h
        rw [← h.1]
        exact hext
      · simp only [if_pos rfl] at h
        exact Extends_trans hext (propagateFuel_extends f s2 s1 r h)

/-- The `decide` scan only returns variables that are unassigned (or 0). -/
theorem decideAux_spec :
    ∀ (vs : List Nat) (s : Solver), decideAux s vs ≠ 0 →
      s.assignment (decideAux s vs) = UNASSIGNED
  | [], s => by intro h; exact absurd rfl h
  | v :: rest, s => by
    intro h
    simp only [decideAux] at h ⊢
    by_cases hv : s.assignment v = UNASSIGNED
    · simpa [hv] using hv
    · rw [if_neg hv] at h ⊢
      exact decideAux_spec rest s h

/-- C10.  `assign` is never called on an already-assigned variable: every
call `propagate` makes targets a variable that is unassigned at that
moment, so propagation of any state is an `Extends` step — already
assigned variables keep their value, level and reason, and the new trail
block repeats no variable, each of its variables having been unassigned
before the call; and the decision step's variable (when nonzero) is
unassigned when `solve` passes it to `assign`. -/
theorem C10_assign_never_overwrites :
    (∀ (f : Nat) (s s1 : Solver) (r : Int),
      propagateFuel f s = some (s1, r) → Extends s s1) ∧
    (∀ s : Solver, decide s ≠ 0 → s.assignment (decide s) = UNASSIGNED) := by
  constructor
  · intro f s s1 r hp
    exact propagateFuel_extends f s s1 r hp
  · intro s h
    exact decideAux_spec ((List.range s.num_vars).map (· + 1)) s h

/-- Witness for C10 at concrete states: propagation of `exProp` is an
extension, and the decision on the fresh one-variable input picks the
unassigned variable 1. -/
theorem C10_assign_never_overwrites_witness :
    Extends exProp exPropS1 ∧
    (initSolver [[1]] 1).assignment (decide (initSolver [[1]] 1)) = UNASSIGNED :=
  ⟨C10_assign_never_overwrites.1 2 exProp exPropS1 (-1) rfl,
   C10_assign_never_overwrites.2 (initSolver [[1]] 1) (by decide)⟩

end CDCL

namespace CDCL

/-! ### C8: trail level monotonicity is an invariant of every operation -/

/-- Lists all of whose entries map to one value are pairwise ordered. -/
theorem pairwise_le_of_all_eq {f : Int → Nat} {c : Nat} :
    ∀ (l : List Int), (∀ a, a ∈ l → f a = c) →
      l.Pairwise (fun x y => f y ≤ f x)
  | [], _ => List.Pairwise.nil
  | a :: rest, h => by
    rw [List.pairwise_cons]
    constructor
    · intro b hb
      rw [h b (List.mem_cons_of_mem a hb), h a (List.mem_cons_self a rest)]
    · exact pairwise_le_of_all_eq rest (fun b hb => h b (List.mem_cons_of_mem a hb))

/-- The initial state satisfies the trail invariants. -/
theorem TrailInv_init (cnf : List (List Int)) (nv : Nat) :
    TrailInv (initSolver cnf nv) := by
  refine ⟨?_, List.Pairwise.nil, List.nodup_nil, ?_⟩
  · intro l hl; cases hl
  · intro v
    simp [initSolver]

/-- An `Extends` step (any propagation) preserves the trail invariants. -/
theorem TrailInv_extends {s s1 : Solver} (hInv : TrailInv s) (hext : Extends s s1) :
    TrailInv s1 := by
  obtain ⟨hA, hB, hC, hD⟩ := hInv
  obtain ⟨-, -, hlev, hpres, new, htrail, hprops, hnd, hconv⟩ := hext
  have hold : ∀ l, l ∈ s.trail →
      s1.assignment l.natAbs = s.assignment l.natAbs ∧
      s1.level_of l.natAbs = s.level_of l.natAbs ∧
      s1.reason l.natAbs = s.reason l.natAbs := by
    intro l hl
    exact hpres l.natAbs ((hD l.natAbs).mp (List.mem_map_of_mem _ hl))
  refine ⟨?_, ?_, ?_, ?_⟩
  · intro l hl
    rw [htrail] at hl
    rcases List.mem_append.mp hl with hl | hl
    · rw [(hprops l hl).2.2, hlev]
    · rw [(hold l hl).2.1, hlev]
      exact hA l hl
  · rw [htrail, List.pairwise_append]
    refine ⟨?_, ?_, ?_⟩
    · exact pairwise_le_of_all_eq new (fun a ha => (hprops a ha).2.2)
    · refine List.Pairwise.imp_of_mem ?_ hB
      intro x y hx hy hxy
      rw [(hold x hx).2.1, (hold y hy).2.1]
      exact hxy
    · intro x hx y hy
      rw [(hprops x hx).2.2, (hold y hy).2.1]
      exact hA y hy
  · rw [htrail, List.map_append]
    refine List.Nodup.append hnd hC ?_
    intro v hvnew hvold
    obtain ⟨l, hl, rfl⟩ := List.mem_map.mp hvnew
    exact ((hD l.natAbs).mp hvold) ((hprops l hl).1)
  · intro v
    rw [htrail, List.map_append, List.mem_append]
    constructor
    · intro hv
      rcases hv with hv | hv
      · obtain ⟨l, hl, rfl⟩ := List.mem_map.mp hv
        exact (hprops l hl).2.1
      · have hvs := (hD v).mp hv
        rw [(hpres v hvs).1]
        exact hvs
    · intro hv
      rcases hconv v hv with hv1 | hv1
      · exact Or.inr ((hD v).mpr hv1)
      · exact Or.inl hv1

/-- The decision step preserves the trail invariants. -/
theorem TrailInv_dec {s : Solver} (hInv : TrailInv s) (hdec : decide s ≠ 0) :
    TrailInv (assign { s with level := s.level + 1 }
      ((decide s : Nat) : Int) (s.level + 1) (-1)) := by
  obtain ⟨hA, hB, hC, hD⟩ := hInv
  have hu : s.assignment (decide s) = UNASSIGNED :=
    decideAux_spec ((List.range s.num_vars).map (· + 1)) s hdec
  have hnotin : (decide s : Nat) ∉ s.trail.map (fun l => l.natAbs) := by
    intro hmem
    exact ((hD (decide s)).mp hmem) hu
  have habs : (((decide s : Nat) : Int)).natAbs = (decide s : Nat) := Int.natAbs_ofNat _
  have hne : ∀ l, l ∈ s.trail → l.natAbs ≠ (decide s : Nat) := by
    intro l hl heq
    exact hnotin (heq ▸ List.mem_map_of_mem _ hl)
  refine ⟨?_, ?_, ?_, ?_⟩
  · intro l hl
    simp only [assign, habs] at hl ⊢
    rcases List.mem_cons.mp hl with hl | hl
    · rw [hl]
      simp [habs]
    · rw [if_neg (hne l hl)]
      exact le_trans (hA l hl) (Nat.le_succ _)
  · simp only [assign, habs]
    rw [List.pairwise_cons]
    constructor
    · intro y hy
      simp only [habs, if_pos rfl, if_neg (hne y hy)]
      exact le_trans (hA y hy) (Nat.le_succ _)
    · refine List.Pairwise.imp_of_mem ?_ hB
      intro x y hx hy hxy
      simp only [if_neg (hne x hx), if_neg (hne y hy)]
      exact hxy
  · simp only [assign, List.map_cons, habs]
    exact List.nodup_cons.mpr ⟨hnotin, hC⟩
  · intro v
    simp only [assign, List.map_cons, habs, List.mem_cons]
    by_cases hveq : v = (decide s : Nat)
    · subst hveq
      simp only [if_pos rfl]
      have hpos : ((decide s : Nat) : Int) > 0 := by
        exact_mod_cast Nat.pos_of_ne_zero hdec
      simp [hpos, UNASSIGNED]
    · rw [if_neg hveq]
      constructor
      · intro hv
        rcases hv with hv | hv
        · exact absurd hv hveq
        · exact (hD v).mp hv
      · intro hv
        exact Or.inr ((hD v).mpr hv)

end CDCL

namespace CDCL

/-- Backtracking (to any level) preserves the trail invariants. -/
theorem TrailInv_backtrack {s : Solver} (hInv : TrailInv s) (B : Nat) :
    TrailInv (backtrack s B) := by
  obtain ⟨hA, hB, hC, hD⟩ := hInv
  obtain ⟨hfil, hsuf, hpop, hkeep⟩ := btAux_spec B s.trail s.assignment s.level_of s.reason hB hC
  rcases hb : btAux B s.trail s.assignment s.level_of s.reason with ⟨t, a, lo, r⟩
  rw [hb] at hfil hsuf hpop hkeep
  dsimp only at hfil hsuf hpop hkeep
  have hbk : backtrack s B =
      { s with trail := t, assignment := a, level_of := lo, reason := r, level := B } := by
    simp [backtrack, hb]
  rw [hbk]
  unfold TrailInv
  dsimp only
  have hsub : List.Sublist t s.trail := by
    rw [hfil]
    exact List.filter_sublist s.trail
  have hkept : ∀ l, l ∈ t →
      a l.natAbs = s.assignment l.natAbs ∧ lo l.natAbs = s.level_of l.natAbs ∧
      r l.natAbs = s.reason l.natAbs := by
    intro l hl
    rw [hfil] at hl
    obtain ⟨hmem, hp⟩ := List.mem_filter.mp hl
    have hlev : s.level_of l.natAbs ≤ B := of_decide_eq_true hp
    exact hkeep l.natAbs (fun l1 _ h1 => h1 ▸ hlev)
  refine ⟨?_, ?_, ?_, ?_⟩
  · intro l hl
    have hlev : s.level_of l.natAbs ≤ B := by
      rw [hfil] at hl
      exact of_decide_eq_true (List.mem_filter.mp hl).2
    simpa [(hkept l hl).2.1] using hlev
  · refine List.Pairwise.imp_of_mem ?_ (hB.sublist hsub)
    intro x y hx hy hxy
    simpa [(hkept x hx).2.1, (hkept y hy).2.1] using hxy
  · exact (hC.sublist (hsub.map (fun l => l.natAbs)))
  · intro v
    constructor
    · intro hv
      obtain ⟨l, hl, rfl⟩ := List.mem_map.mp hv
      rw [(hkept l hl).1]
      exact (hD l.natAbs).mp (List.mem_map_of_mem _ (hsub.mem hl))
    · intro hv
      by_cases hmem : v ∈ s.trail.map (fun l => l.natAbs)
      · obtain ⟨l, hl, rfl⟩ := List.mem_map.mp hmem
        by_cases hlev : s.level_of l.natAbs ≤ B
        · refine List.mem_map_of_mem _ ?_
          rw [hfil]
          exact List.mem_filter.mpr ⟨hl, decide_eq_true hlev⟩
        · obtain ⟨hres, -, -⟩ := hpop l hl (by omega)
          exact absurd hres hv
      · have hveq : a v = s.assignment v :=
          (hkeep v (fun l1 hl1 h1 => absurd (h1 ▸ List.mem_map_of_mem _ hl1) (h1 ▸ hmem))).1
        rw [hveq] at hv
        exact absurd ((hD v).mpr hv) hmem

/-- The conflict step of the loop — `analyze` (which only appends to the
clause store) followed by `backtrack` — preserves the trail invariants. -/
theorem TrailInv_confl {s : Solver} (hInv : TrailInv s) (c : Nat) :
    TrailInv (backtrack (analyze s c).1 (analyze s c).2) := by
  have h1 : TrailInv (analyze s c).1 := by
    rcases hb : buildLearned s (analyzeFinalMark s c) with ⟨learned, bl⟩
    have heq : (analyze s c).1 = add_clause s learned := by
      simp [analyze, hb]
    rw [heq]
    exact hInv
  exact TrailInv_backtrack h1 _

/-- Every state reachable during `solve` satisfies the trail invariants. -/
theorem Reach_TrailInv {cnf : List (List Int)} {nv : Nat} :
    ∀ {s : Solver}, Reach cnf nv s → TrailInv s := by
  intro s h
  induction h with
  | init => exact TrailInv_init cnf nv
  | prop hreach hprop ih => exact TrailInv_extends ih (propagateFuel_extends _ _ _ _ hprop)
  | dec hreach hdec ih => exact TrailInv_dec ih hdec
  | confl hreach ih => exact TrailInv_confl ih _

/-- C8.  Trail level monotonicity is an invariant of every solver operation:
in every state reachable during `solve` (initial state, and closure under
propagation, decision and conflict steps), for all C-order trail positions
`i < j < trail_top`, the level of the variable at position `i` is at most
the level of the variable at position `j`.  C's `trail[i]` is
`trail.reverse[i]` in the embedding. -/
theorem C8_trail_level_monotone (cnf : List (List Int)) (nv : Nat) (s : Solver)
    (h : Reach cnf nv s) :
    ∀ i j : Nat, i < j → j < s.trail.length →
      s.level_of ((s.trail.reverse.getD i 0).natAbs) ≤
        s.level_of ((s.trail.reverse.getD j 0).natAbs) := by
  obtain ⟨-, hpair, -, -⟩ := Reach_TrailInv h
  intro i j hij hj
  have hrev : s.trail.reverse.Pairwise
      (fun x y => s.level_of x.natAbs ≤ s.level_of y.natAbs) :=
    List.pairwise_reverse.mpr hpair
  have hlenj : j < s.trail.reverse.length := by simpa using hj
  have hleni : i < s.trail.reverse.length := lt_trans hij hlenj
  have hp := List.pairwise_iff_get.mp hrev ⟨i, hleni⟩ ⟨j, hlenj⟩ hij
  rw [List.getD_eq_getElem _ _ hleni, List.getD_eq_getElem _ _ hlenj]
  simpa [List.get_eq_getElem] using hp

/-- Witness for C8 at a concrete reachable state: after propagating the unit
clauses `1` and `2` from the initial state, the two trail entries are
level-ordered. -/
theorem C8_trail_level_monotone_witness :
    exReach.level_of ((exReach.trail.reverse.getD 0 0).natAbs) ≤
      exReach.level_of ((exReach.trail.reverse.getD 1 0).natAbs) :=
  C8_trail_level_monotone [[1], [2]] 2 exReach
    (Reach.prop Reach.init
      (rfl : propagateFuel 3 (initSolver [[1], [2]] 2) = some (exReach, -1)))
    0 1 (by omega) (by decide)

end CDCL

namespace CDCL

/-- Witness for C7 at a concrete state: backtracking `exBt` to level 0 keeps
exactly the level-0 entry of its trail. -/
theorem C7_backtrack_frame_witness :
    (backtrack exBt 0).trail =
      exBt.trail.filter (fun l => Decidable.decide (exBt.level_of l.natAbs ≤ 0)) :=
  (C7_backtrack_frame exBt 0 (by decide) (by decide)).1

end CDCL

namespace CDCL

/-! ### C5: the backjump level -/

/-- Bit test of a one-bit mask. -/
theorem testBit_one_shiftLeft (u v : Nat) :
    (1 <<< u).testBit v = Decidable.decide (u = v) := by
  rw [Nat.one_shiftLeft]
  exact Nat.testBit_two_pow

/-- Every literal of any clause fetched by index satisfies the store's
well-formedness bound. -/
theorem clause_getD_wf (s : Solver)
    (hwf : ∀ cl, cl ∈ s.clauses → ∀ l, l ∈ cl → l ≠ 0 ∧ l.natAbs ≤ s.num_vars)
    (k : Nat) : ∀ l, l ∈ s.clauses.getD k [] → l ≠ 0 ∧ l.natAbs ≤ s.num_vars := by
  intro l hl
  by_cases hk : k < s.clauses.length
  · rw [List.getD_eq_getElem _ _ hk] at hl
    exact hwf _ (List.getElem_mem hk) l hl
  · rw [List.getD_eq_default _ _ (by omega)] at hl
    cases hl

/-- Variables marked by `markVars` either were marked before or come from
the marked clause. -/
theorem markVars_seen_sub (s : Solver) (Q : Nat → Prop) :
    ∀ (lits : List Int) (m : Mark),
      (∀ v, m.seen.testBit v = true → Q v) →
      (∀ l, l ∈ lits → Q l.natAbs) →
      ∀ v, (markVars s m lits).seen.testBit v = true → Q v
  | [], m, hm, _ => hm
  | l :: rest, m, hm, hQ => by
    have hstep : markVars s m (l :: rest) = markVars s
        (if m.touched.testBit l.natAbs then m
         else { touched := m.touched ||| (1 <<< l.natAbs), seen := m.seen ||| (1 <<< l.natAbs),
                counter := if s.level_of l.natAbs = s.level then m.counter + 1
                           else m.counter }) rest := rfl
    rw [hstep]
    refine markVars_seen_sub s Q rest _ ?_ (fun x hx => hQ x (List.mem_cons_of_mem l hx))
    intro v hv
    by_cases ht : m.touched.testBit l.natAbs
    · rw [if_pos ht] at hv
      exact hm v hv
    · rw [if_neg ht] at hv
      simp only at hv
      rw [Nat.testBit_lor, Bool.or_eq_true] at hv
      rcases hv with hv | hv
      · exact hm v hv
      · rw [testBit_one_shiftLeft] at hv
        have heq : l.natAbs = v := of_decide_eq_true hv
        exact heq ▸ hQ l (List.mem_cons_self l rest)

/-- Variables marked after the resolution loop either were marked before or
come from some clause of the store. -/
theorem analyzeLoop_seen_sub (s : Solver) (Q : Nat → Prop)
    (hcl : ∀ (k : Nat), ∀ l, l ∈ s.clauses.getD k [] → Q l.natAbs) :
    ∀ (t : List Int) (m : Mark),
      (∀ v, m.seen.testBit v = true → Q v) →
      ∀ v, (analyzeLoop s t m).seen.testBit v = true → Q v
  | [], m, hm => hm
  | lit :: rest, m, hm => by
    simp only [analyzeLoop]
    by_cases hcnt : m.counter ≤ 1
    · rw [if_pos hcnt]
      exact hm
    · rw [if_neg hcnt]
      by_cases hseen : (m.touched.testBit lit.natAbs && m.seen.testBit lit.natAbs) = true
      · rw [if_pos hseen]
        have hm1 : ∀ v,
            (Mark.mk m.touched (m.seen ^^^ (1 <<< lit.natAbs)) (m.counter - 1)).seen.testBit v
              = true → Q v := by
          intro v hv
          simp only at hv
          rw [Nat.testBit_xor] at hv
          cases h1 : m.seen.testBit v with
          | true => exact hm v h1
          | false =>
            rw [h1] at hv
            simp only [Bool.false_xor] at hv
            rw [testBit_one_shiftLeft] at hv
            have hveq : lit.natAbs = v := of_decide_eq_true hv
            rw [← hveq] at h1
            have h2 : m.seen.testBit lit.natAbs = true := by
              rw [Bool.and_eq_true] at hseen
              exact hseen.2
            rw [h1] at h2
            cases h2
        by_cases hrc : s.reason lit.natAbs < 0
        · rw [if_pos hrc]
          exact analyzeLoop_seen_sub s Q hcl rest _ hm1
        · rw [if_neg hrc]
          refine analyzeLoop_seen_sub s Q hcl rest _ ?_
          exact markVars_seen_sub s Q _ _ hm1 (fun l hl => hcl _ l hl)
      · rw [if_neg hseen]
        exact analyzeLoop_seen_sub s Q hcl rest m hm

/-- Every variable in the analyzer's final marked set lies in
`1..num_vars` whenever the clause store is well formed. -/
theorem analyzeFinalMark_seen_range (s : Solver) (c : Nat)
    (hwf : ∀ cl, cl ∈ s.clauses → ∀ l, l ∈ cl → l ≠ 0 ∧ l.natAbs ≤ s.num_vars) :
    ∀ v, (analyzeFinalMark s c).seen.testBit v = true → 1 ≤ v ∧ v ≤ s.num_vars := by
  have hQ : ∀ (k : Nat), ∀ l, l ∈ s.clauses.getD k [] →
      1 ≤ l.natAbs ∧ l.natAbs ≤ s.num_vars := by
    intro k l hl
    obtain ⟨h0, hle⟩ := clause_getD_wf s hwf k l hl
    exact ⟨Int.natAbs_pos.mpr h0, hle⟩
  unfold analyzeFinalMark
  refine analyzeLoop_seen_sub s _ hQ s.trail _ ?_
  refine markVars_seen_sub s _ _ _ ?_ (fun l hl => hQ c l hl)
  intro v hv
  rw [Nat.zero_testBit] at hv
  cases hv

/-- The backjump-level fold of the construction loop computes an upper bound
of the levels below the current one of the marked variables it scans, is
monotone in its accumulator, stays below the current level, and is either
its initial accumulator or attained by a scanned marked variable whose
level is below the current one. -/
theorem buildLoop_bl_spec (s : Solver) (m : Mark)
    (hlev : ∀ v, s.level_of v ≤ s.level) :
    ∀ (vs : List Nat) (rev : List Int) (size : Nat) (bl : Nat),
      bl < s.level →
      (buildLoop s m vs rev size bl).2 < s.level ∧
      bl ≤ (buildLoop s m vs rev size bl).2 ∧
      (∀ v, v ∈ vs → (m.touched.testBit v && m.seen.testBit v) = true →
        s.level_of v < s.level → s.level_of v ≤ (buildLoop s m vs rev size bl).2) ∧
      ((buildLoop s m vs rev size bl).2 = bl ∨
        ∃ v, v ∈ vs ∧ (m.touched.testBit v && m.seen.testBit v) = true ∧
          s.level_of v < s.level ∧ s.level_of v = (buildLoop s m vs rev size bl).2)
  | [], rev, size, bl => by
    intro hbl
    refine ⟨hbl, le_refl _, ?_, Or.inl rfl⟩
    intro v hv
    cases hv
  | v :: vs, rev, size, bl => by
    intro hbl
    simp only [buildLoop]
    by_cases hmk : (m.touched.testBit v && m.seen.testBit v) = true
    · rw [if_pos hmk]
      by_cases hcond : s.level_of v ≠ s.level ∧ bl < s.level_of v
      · rw [if_pos hcond]
        obtain ⟨hA, hB, hC, hD⟩ := buildLoop_bl_spec s m hlev vs
          (if size < MAX_LIT_BUF then (if s.assignment v = 1 then -(v : Int) else (v : Int)) :: rev
           else rev)
          (if size < MAX_LIT_BUF then size + 1 else size)
          (s.level_of v) (lt_of_le_of_ne (hlev v) hcond.1)
        refine ⟨hA, le_trans (le_of_lt hcond.2) hB, ?_, ?_⟩
        · intro w hw hwmk hwlev
          rcases List.mem_cons.mp hw with hw | hw
          · subst hw
            exact hB
          · exact hC w hw hwmk hwlev
        · rcases hD with hD | hD
          · exact Or.inr ⟨v, List.mem_cons_self _ _, hmk,
              lt_of_le_of_ne (hlev v) hcond.1, hD.symm⟩
          · obtain ⟨w, hw, hwmk, hwlev, hweq⟩ := hD
            exact Or.inr ⟨w, List.mem_cons_of_mem _ hw, hwmk, hwlev, hweq⟩
      · rw [if_neg hcond]
        obtain ⟨hA, hB, hC, hD⟩ := buildLoop_bl_spec s m hlev vs
          (if size < MAX_LIT_BUF then (if s.assignment v = 1 then -(v : Int) else (v : Int)) :: rev
           else rev)
          (if size < MAX_LIT_BUF then size + 1 else size)
          bl hbl
        refine ⟨hA, hB, ?_, ?_⟩
        · intro w hw hwmk hwlev
          rcases List.mem_cons.mp hw with hw | hw
          · subst hw
            have hne : s.level_of w ≠ s.level := ne_of_lt hwlev
            have hle : ¬ bl < s.level_of w := fun hlt => hcond ⟨hne, hlt⟩
            omega
          · exact hC w hw hwmk hwlev
        · rcases hD with hD | hD
          · exact Or.inl hD
          · obtain ⟨w, hw, hwmk, hwlev, hweq⟩ := hD
            exact Or.inr ⟨w, List.mem_cons_of_mem _ hw, hwmk, hwlev, hweq⟩
    · rw [if_neg hmk]
      obtain ⟨hA, hB, hC, hD⟩ := buildLoop_bl_spec s m hlev vs rev size bl hbl
      refine ⟨hA, hB, ?_, ?_⟩
      · intro w hw hwmk hwlev
        rcases List.mem_cons.mp hw with hw | hw
        · subst hw
          exact absurd hwmk hmk
        · exact hC w hw hwmk hwlev
      · rcases hD with hD | hD
        · exact Or.inl hD
        · obtain ⟨w, hw, hwmk, hwlev, hweq⟩ := hD
          exact Or.inr ⟨w, List.mem_cons_of_mem _ hw, hwmk, hwlev, hweq⟩

/-- C5.  For any call to `analyze` at current level at least 1 on a state
with all levels bounded by the current level (true of all reachable
states) and a well-formed clause store, the returned backjump level `B`
satisfies `B < level` (`0 ≤ B` holds as `B` is a natural), and `B` equals
the maximum of `level_of v` over the final marked variables `v` whose
level is strictly below the current level, or 0 when there is no such
variable: `B` bounds all of them from above and is 0 or attained. -/
theorem C5_backjump_level (s : Solver) (c : Nat)
    (hL : 1 ≤ s.level)
    (hlev : ∀ v, s.level_of v ≤ s.level)
    (hwf : ∀ cl, cl ∈ s.clauses → ∀ l, l ∈ cl → l ≠ 0 ∧ l.natAbs ≤ s.num_vars) :
    (analyze s c).2 < s.level ∧
    (∀ v, ((analyzeFinalMark s c).touched.testBit v &&
        (analyzeFinalMark s c).seen.testBit v) = true →
      s.level_of v < s.level → s.level_of v ≤ (analyze s c).2) ∧
    ((analyze s c).2 = 0 ∨
      ∃ v, ((analyzeFinalMark s c).touched.testBit v &&
          (analyzeFinalMark s c).seen.testBit v) = true ∧
        s.level_of v < s.level ∧ s.level_of v = (analyze s c).2) := by
  have hb2 : (analyze s c).2 = (buildLearned s (analyzeFinalMark s c)).2 := by
    rcases hb : buildLearned s (analyzeFinalMark s c) with ⟨learned, bl⟩
    simp [analyze, hb]
  rw [hb2]
  unfold buildLearned
  obtain ⟨hA, hB, hC, hD⟩ := buildLoop_bl_spec s (analyzeFinalMark s c) hlev
    ((List.range s.num_vars).map (· + 1)) [] 0 0 (by omega)
  refine ⟨hA, ?_, ?_⟩
  · intro v hmk hvlev
    have hmk2 : (analyzeFinalMark s c).seen.testBit v = true := by
      rw [Bool.and_eq_true] at hmk
      exact hmk.2
    have hrange := analyzeFinalMark_seen_range s c hwf v hmk2
    have hv_mem : v ∈ (List.range s.num_vars).map (· + 1) :=
      List.mem_map.mpr ⟨v - 1, List.mem_range.mpr (by omega), by omega⟩
    exact hC v hv_mem hmk hvlev
  · rcases hD with hD | hD
    · exact Or.inl hD
    · obtain ⟨w, hw, hwmk, hwlev, hweq⟩ := hD
      exact Or.inr ⟨w, hwmk, hwlev, hweq⟩

/-- Witness for C5 at the concrete state `exAn`: the backjump level returned
for its level-1 conflict on clause 0 is below the current level 1. -/
theorem C5_backjump_level_witness :
    (analyze exAn 0).2 < exAn.level :=
  (C5_backjump_level exAn 0 (by decide)
    (fun v => by by_cases h : v = 1 <;> simp [exAn, h])
    (by decide)).1

end CDCL
